import Mathlib

/-!
Verification development for the CodeGuardian review pipeline.

The Lean definitions below are a shallow embedding of the Python sources:
`src/diff_parser.py`, `src/review.py` and `src/ai_reviewer.py`.  Text is
modelled as `List Char`; Python dictionaries are modelled as lookup
functions; the OpenAI client is modelled as an oracle giving the outcome
of each call attempt.
-/

namespace CodeGuardian

/-! ### Constants from `src/ai_reviewer.py` -/

/-- Constant `MAX_INPUT_LENGTH = 500` from `src/ai_reviewer.py`. -/
def MAX_INPUT_LENGTH : Nat := 500

/-- Constant `MAX_RETRIES = 3` from `src/ai_reviewer.py`. -/
def MAX_RETRIES : Nat := 3

/-! ### `src/diff_parser.py` -/

/-- The `DiffLine` dataclass from `src/diff_parser.py`. -/
structure DiffLine where
  lineNumber : Nat
  content : List Char
  isAddition : Bool
  isDeletion : Bool
  isContext : Bool
deriving DecidableEq, Repr

/-- Maximal run of decimal digits at the head of the input, with its value
and the remaining characters (the `\d+` pieces of `HUNK_HEADER_PATTERN`);
`none` when the input does not start with a digit. -/
def readNat (cs : List Char) : Option (Nat × List Char) :=
  let ds := cs.takeWhile Char.isDigit
  if ds = [] then none
  else some (ds.foldl (fun acc c => 10 * acc + (c.toNat - 48)) 0, cs.dropWhile Char.isDigit)

/-- The optional `(?:,(\d+))?` group of `HUNK_HEADER_PATTERN`: if a comma
follows, digits are required after it (otherwise the mandatory space that
follows the group cannot match the comma and the whole match fails). -/
def readOptCount (cs : List Char) : Option (List Char) :=
  match cs with
  | c :: rest =>
      if c = ',' then
        match readNat rest with
        | some (_, r) => some r
        | none => none
      else some cs
  | [] => some cs

/-- Model of `HUNK_HEADER_PATTERN.match(raw_line)`, returning group 3 (`newStart`):
the regex `^@@ -(\d+)(?:,(\d+))? \+(\d+)(?:,(\d+))? @@` anchored at the
start of the line, with arbitrary trailing text allowed after the
closing `@@`. -/
def parseHunkHeader (cs : List Char) : Option Nat :=
  match cs with
  | c1 :: c2 :: c3 :: c4 :: rest =>
      if c1 = '@' ∧ c2 = '@' ∧ c3 = ' ' ∧ c4 = '-' then
        match readNat rest with
        | none => none
        | some (_, r1) =>
            match readOptCount r1 with
            | none => none
            | some r2 =>
                match r2 with
                | c5 :: c6 :: r3 =>
                    if c5 = ' ' ∧ c6 = '+' then
                      match readNat r3 with
                      | none => none
                      | some (newStart, r4) =>
                          match readOptCount r4 with
                          | none => none
                          | some r5 =>
                              match r5 with
                              | c7 :: c8 :: c9 :: _ =>
                                  if c7 = ' ' ∧ c8 = '@' ∧ c9 = '@' then some newStart
                                  else none
                              | _ => none
                    else none
                | _ => none
      else none
  | _ => none

/-- Python's `patch.split("\n")`: split on every newline character; the
result always has one more part than there are newlines. -/
def splitLines : List Char → List (List Char)
  | [] => [[]]
  | c :: cs =>
      if c = '\n' then [] :: splitLines cs
      else
        match splitLines cs with
        | [] => [[c]]
        | l :: ls => (c :: l) :: ls

/-- The body of the `for raw_line in patch.split("\n")` loop of
`parse_patch`, processing the remaining raw lines with the running
new-line counter `current_new_line`.  A line starting with a backslash is
skipped; a hunk header resets the counter; an empty line is skipped; then
an addition or context line is emitted at the current counter (which is
then incremented), a deletion or any other prefix is skipped. -/
def parseLinesAux : List (List Char) → Nat → List DiffLine
  | [], _ => []
  | line :: rest, counter =>
      if line.head? = some '\\' then parseLinesAux rest counter
      else
        match parseHunkHeader line with
        | some n => parseLinesAux rest n
        | none =>
            match line with
            | [] => parseLinesAux rest counter
            | p :: content =>
                if p = '+' then
                  ⟨counter, content, true, false, false⟩ :: parseLinesAux rest (counter + 1)
                else if p = '-' then parseLinesAux rest counter
                else if p = ' ' then
                  ⟨counter, content, false, false, true⟩ :: parseLinesAux rest (counter + 1)
                else parseLinesAux rest counter

/-- Function `parse_patch` from `src/diff_parser.py`: empty input yields the empty
list, otherwise the split lines are processed with the counter starting
at 0. -/
def parsePatch (patch : List Char) : List DiffLine :=
  if patch = [] then [] else parseLinesAux (splitLines patch) 0

/-- Function `get_valid_comment_lines` from `src/diff_parser.py`.  The Python
function returns the set `{line.line_number for line in parse_patch(patch)}`;
the set is modelled by the list of line numbers, whose membership relation
coincides with the set's. -/
def getValidCommentLines (patch : List Char) : List Nat :=
  (parsePatch patch).map DiffLine.lineNumber

/-- Constant `REVIEWABLE_EXTENSIONS = frozenset({".py", ".js", ".ts", ".html"})`. -/
def REVIEWABLE_EXTENSIONS : List (List Char) :=
  [(".py").toList, (".js").toList, (".ts").toList, (".html").toList]

/-- A file dict as consumed by `filter_reviewable_files` (keys `filename`,
`patch`, `additions`, `deletions`; `patch = None` is modelled by
`none`). -/
structure ChangedFile where
  filename : List Char
  patch : Option (List Char)
  additions : Nat
  deletions : Nat
deriving DecidableEq, Repr

/-- Model of `filename[dot_index:]` where `dot_index = filename.rfind(".")`:
the suffix of the filename beginning at the LAST dot, or `none` when the
filename contains no dot (`rfind` returned -1). -/
def lastDotSuffix : List Char → Option (List Char)
  | [] => none
  | c :: cs =>
      match lastDotSuffix cs with
      | some s => some s
      | none => if c = '.' then some (c :: cs) else none

/-- Function `filter_reviewable_files` from `src/diff_parser.py`: skip files with
no patch (binary), with zero additions (delete-only), with no dot in the
filename, or whose last-dot suffix is outside `REVIEWABLE_EXTENSIONS`. -/
def filterReviewableFiles : List ChangedFile → List ChangedFile
  | [] => []
  | f :: fs =>
      match f.patch with
      | none => filterReviewableFiles fs
      | some _ =>
          if f.additions = 0 then filterReviewableFiles fs
          else
            match lastDotSuffix f.filename with
            | none => filterReviewableFiles fs
            | some ext =>
                if ext ∈ REVIEWABLE_EXTENSIONS then f :: filterReviewableFiles fs
                else filterReviewableFiles fs

/-! ### `src/review.py` and the `ReviewComment` model of `src/ai_reviewer.py` -/

/-- The `severity` field of `ReviewComment`: `Literal["error", "warning", "info"]`
(pydantic rejects any other value, so the type has exactly these three
inhabitants). -/
inductive Severity where
  | error
  | warning
  | info
deriving DecidableEq, Repr

/-- The `category` field of `ReviewComment`:
`Literal["bug", "security", "performance", "readability"]`. -/
inductive Category where
  | bug
  | security
  | performance
  | readability
deriving DecidableEq, Repr

/-- The `ReviewComment` pydantic model from `src/ai_reviewer.py`. -/
structure ReviewComment where
  filePath : List Char
  lineNumber : Nat
  severity : Severity
  category : Category
  comment : List Char
deriving DecidableEq, Repr

/-- Function `validate_comment_lines` from `src/review.py`.  The `file_patches`
dict is modelled by its lookup function (`dict.get` returning `None` for
a missing key).  A comment with no patch for its file is skipped; a
comment whose line number is among the file's valid comment lines is
kept; any other comment is discarded. -/
def validateCommentLines : List ReviewComment → (List Char → Option (List Char)) → List ReviewComment
  | [], _ => []
  | c :: cs, filePatches =>
      match filePatches c.filePath with
      | none => validateCommentLines cs filePatches
      | some patch =>
          if c.lineNumber ∈ getValidCommentLines patch then
            c :: validateCommentLines cs filePatches
          else validateCommentLines cs filePatches

/-- The text of a `severity` value as it appears in Python. -/
def severityText : Severity → List Char
  | .error => ("error").toList
  | .warning => ("warning").toList
  | .info => ("info").toList

/-- The text of a `category` value as it appears in Python. -/
def categoryText : Category → List Char
  | .bug => ("bug").toList
  | .security => ("security").toList
  | .performance => ("performance").toList
  | .readability => ("readability").toList

/-- Function `format_comment_body` from `src/review.py`:
the f-string `"**[{severity}] [{category}]**: {comment}"`. -/
def formatCommentBody (c : ReviewComment) : List Char :=
  ("**[").toList ++ severityText c.severity ++ ("] [").toList ++ categoryText c.category
    ++ ("]**: ").toList ++ c.comment

/-- Count `error_count = sum(1 for c in comments if c.severity == "error")`
in `build_summary`. -/
def errorCount (comments : List ReviewComment) : Nat :=
  comments.countP (fun c => c.severity == Severity.error)

/-- Count `warning_count = sum(1 for c in comments if c.severity == "warning")`
in `build_summary`. -/
def warningCount (comments : List ReviewComment) : Nat :=
  comments.countP (fun c => c.severity == Severity.warning)

/-- Count `info_count = sum(1 for c in comments if c.severity == "info")`
in `build_summary`. -/
def infoCount (comments : List ReviewComment) : Nat :=
  comments.countP (fun c => c.severity == Severity.info)

/-- Function `build_summary` from `src/review.py`: counts comments of each
severity (`total = len(comments)`) and interpolates them into
`"CodeGuardian Review: Found {total} issues ({e} errors, {w} warnings, {i} info)"`.
Note the three unit words are fixed plural/collective forms regardless of
the counts. -/
def buildSummary (comments : List ReviewComment) : List Char :=
  ("CodeGuardian Review: Found ").toList ++ (Nat.repr comments.length).toList
    ++ (" issues (").toList ++ (Nat.repr (errorCount comments)).toList
    ++ (" errors, ").toList ++ (Nat.repr (warningCount comments)).toList
    ++ (" warnings, ").toList ++ (Nat.repr (infoCount comments)).toList
    ++ (" info)").toList

/-! ### `AIReviewer._sanitize_input` (`src/ai_reviewer.py`)

Each `re.sub` is modelled by a left-to-right single pass: at every
position the pattern is tried; on a match the replacement is emitted and
scanning resumes after the match, otherwise one character is emitted and
scanning advances by one — exactly how `re.sub` replaces all
non-overlapping matches.  The scans recurse on a fuel argument equal to
the input length, which always suffices because every recursive step
consumes at least one input character (the `...Aux_fuel` lemmas below
prove the fuel-irrelevance). -/

/-- The backtick character (the rendering of `chr(96)`). -/
def backtickChar : Char := Char.ofNat 96

/-- Match of `!\[([^\]]*)\]\([^)]*\)` anchored at the head of the input,
returning the label group and the remainder after the match.  The
character classes exclude the closing delimiters, so greedy matching is
deterministic: the label is the maximal run of non-`]` characters, which
must be followed by `](`, then a maximal run of non-`)` characters
followed by `)`. -/
def matchImageAt (cs : List Char) : Option (List Char × List Char) :=
  match cs with
  | c1 :: c2 :: rest =>
      if c1 = '!' ∧ c2 = '[' then
        let label := rest.takeWhile (fun c => c ≠ ']')
        let afterLabel := rest.dropWhile (fun c => c ≠ ']')
        if afterLabel.head? = some ']' ∧ afterLabel.tail.head? = some '(' then
          let afterUrl := (afterLabel.tail.tail).dropWhile (fun c => c ≠ ')')
          if afterUrl.head? = some ')' then some (label, afterUrl.tail)
          else none
        else none
      else none
  | _ => none

/-- One pass of `re.sub(r"!\[([^\]]*)\]\([^)]*\)", r"\1", text)`. -/
def stripImagesAux : Nat → List Char → List Char
  | 0, cs => cs
  | fuel + 1, cs =>
      match cs with
      | [] => []
      | c :: rest =>
          match matchImageAt cs with
          | some (label, after) => label ++ stripImagesAux fuel after
          | none => c :: stripImagesAux fuel rest

/-- Model of `re.sub(r"!\[([^\]]*)\]\([^)]*\)", r"\1", text)`. -/
def stripImages (cs : List Char) : List Char := stripImagesAux cs.length cs

/-- Match of `\[([^\]]*)\]\([^)]*\)` (the link pattern: the image pattern
without the leading `!`) anchored at the head of the input. -/
def matchLinkAt (cs : List Char) : Option (List Char × List Char) :=
  match cs with
  | c1 :: rest =>
      if c1 = '[' then
        let label := rest.takeWhile (fun c => c ≠ ']')
        let afterLabel := rest.dropWhile (fun c => c ≠ ']')
        if afterLabel.head? = some ']' ∧ afterLabel.tail.head? = some '(' then
          let afterUrl := (afterLabel.tail.tail).dropWhile (fun c => c ≠ ')')
          if afterUrl.head? = some ')' then some (label, afterUrl.tail)
          else none
        else none
      else none
  | [] => none

/-- One pass of `re.sub(r"\[([^\]]*)\]\([^)]*\)", r"\1", sanitized)`. -/
def stripLinksAux : Nat → List Char → List Char
  | 0, cs => cs
  | fuel + 1, cs =>
      match cs with
      | [] => []
      | c :: rest =>
          match matchLinkAt cs with
          | some (label, after) => label ++ stripLinksAux fuel after
          | none => c :: stripLinksAux fuel rest

/-- Model of `re.sub(r"\[([^\]]*)\]\([^)]*\)", r"\1", sanitized)`. -/
def stripLinks (cs : List Char) : List Char := stripLinksAux cs.length cs

/-- The lazy group `(.*?)` of the emphasis pattern followed by its
closing `\*{1,3}`: scan for the first `*` reachable without crossing a
newline (`.` does not match a newline); return the group and the
remainder starting at that `*`; `none` when a newline or the end of input
is reached first. -/
def findEmphClose : List Char → Option (List Char × List Char)
  | [] => none
  | c :: cs =>
      if c = '*' then some ([], c :: cs)
      else if c = '\n' then none
      else
        match findEmphClose cs with
        | some (g, rest) => some (c :: g, rest)
        | none => none

/-- Backtracking over the opening `\*{1,3}` of the emphasis pattern:
try `k` opening stars (greedy, from the largest), then the lazy group and
a greedy closing run of one to three stars. -/
def tryEmphOpen (cs : List Char) : Nat → Option (List Char × List Char)
  | 0 => none
  | k + 1 =>
      match findEmphClose (cs.drop (k + 1)) with
      | some (g, starsRest) =>
          let m := min ((starsRest.takeWhile (fun c => c = '*')).length) 3
          some (g, starsRest.drop m)
      | none => tryEmphOpen cs k

/-- Match of `\*{1,3}(.*?)\*{1,3}` anchored at the head of the input,
returning the group and the remainder after the match. -/
def matchEmphasisAt (cs : List Char) : Option (List Char × List Char) :=
  let r := (cs.takeWhile (fun c => c = '*')).length
  if r = 0 then none else tryEmphOpen cs (min r 3)

/-- One pass of `re.sub(r"\*{1,3}(.*?)\*{1,3}", r"\1", sanitized)`. -/
def stripEmphasisAux : Nat → List Char → List Char
  | 0, cs => cs
  | fuel + 1, cs =>
      match cs with
      | [] => []
      | c :: rest =>
          match matchEmphasisAt cs with
          | some (g, after) => g ++ stripEmphasisAux fuel after
          | none => c :: stripEmphasisAux fuel rest

/-- Model of `re.sub(r"\*{1,3}(.*?)\*{1,3}", r"\1", sanitized)`. -/
def stripEmphasis (cs : List Char) : List Char := stripEmphasisAux cs.length cs

/-- The ASCII characters matched by Python's `\s`
(space, tab, newline, carriage return, vertical tab, form feed). -/
def isPySpace (c : Char) : Bool :=
  c = ' ' || c = '\t' || c = '\n' || c = '\r' || c = Char.ofNat 11 || c = Char.ofNat 12

/-- One pass of
`re.sub(r"^#{1,6}\s+", "", sanitized, flags=re.MULTILINE)`: the flag
records whether the current position is at a line start of the original
string (start of input, or just after a newline — including a newline
consumed by the greedy `\s+` of a previous match).  At a line start, a
run of one to six `#` followed by at least one whitespace character is
removed together with the whole whitespace run; a run of seven or more
`#`, or one with no whitespace after it, does not match. -/
def stripHeadersAux : Nat → Bool → List Char → List Char
  | 0, _, cs => cs
  | fuel + 1, atLineStart, cs =>
      match cs with
      | [] => []
      | c :: rest =>
          if atLineStart then
            let hashes := cs.takeWhile (fun x => x = '#')
            if 1 ≤ hashes.length ∧ hashes.length ≤ 6 then
              let afterHash := cs.dropWhile (fun x => x = '#')
              let ws := afterHash.takeWhile isPySpace
              if ws = [] then c :: stripHeadersAux fuel false rest
              else
                stripHeadersAux fuel (ws.getLast? == some '\n') (afterHash.dropWhile isPySpace)
            else c :: stripHeadersAux fuel (c == '\n') rest
          else c :: stripHeadersAux fuel (c == '\n') rest

/-- Model of `re.sub(r"^#{1,6}\s+", "", sanitized, flags=re.MULTILINE)`. -/
def stripHeaders (cs : List Char) : List Char := stripHeadersAux cs.length true cs

/-- Model of `re.sub(r"`{1,3}", "", sanitized)`: each match removes a run of one
to three backticks and nothing else, and successive matches cover every
backtick in the input, so the substitution removes exactly the backtick
characters. -/
def stripBackticks (cs : List Char) : List Char :=
  cs.filter (fun c => c ≠ backtickChar)

/-- Method `AIReviewer._sanitize_input`: empty input yields the empty string;
otherwise strip images, emphasis, links, headers and backticks in that
order, then truncate to `MAX_INPUT_LENGTH` characters when longer. -/
def sanitizeInput (text : List Char) : List Char :=
  if text = [] then []
  else
    let s1 := stripImages text
    let s2 := stripEmphasis s1
    let s3 := stripLinks s2
    let s4 := stripHeaders s3
    let s5 := stripBackticks s4
    if MAX_INPUT_LENGTH < s5.length then s5.take MAX_INPUT_LENGTH else s5

/-! ### The retry loop of `AIReviewer._call_openai` (`src/ai_reviewer.py`)

The OpenAI client call inside the `try` block is effectful; it is
modelled by an oracle mapping the attempt index to the outcome of that
attempt: a successful HTTP response (carrying the refusal and
finish-reason information the code inspects, and the parsed payload), or
one of the three exception classes the code handles. -/

/-- The parsed `ReviewResponse` pydantic model from `src/ai_reviewer.py`. -/
structure ReviewResponse where
  comments : List ReviewComment
  summary : List Char
deriving DecidableEq, Repr

/-- A successful `chat.completions.create` response, reduced to the three
pieces `_call_openai` inspects: `choice.message.refusal`,
`choice.finish_reason == "length"`, and the validated payload of
`choice.message.content`. -/
structure ApiResponse where
  refusal : Option (List Char)
  finishedByLength : Bool
  parsed : ReviewResponse
deriving DecidableEq, Repr

/-- Outcome of one attempt of the `try` block in `_call_openai`. -/
inductive ApiOutcome where
  | ok (r : ApiResponse)
  | authError
  | badRequest
  | rateLimit
deriving DecidableEq, Repr

/-- How `_call_openai` leaves its caller: either `AuthenticationError`
was re-raised, or a `ReviewResponse` was returned. -/
inductive CallResult where
  | raisedAuthError
  | returned (r : ReviewResponse)
deriving DecidableEq, Repr

/-- Observable trace of `_call_openai`: the argument of every
`time.sleep` in order, the number of `chat.completions.create` attempts
made, and the result. -/
structure CallTrace where
  sleeps : List Nat
  attempts : Nat
  result : CallResult
deriving DecidableEq, Repr

/-- Handling of a successful response inside the `try` block: a refusal
returns an empty response with empty summary; `finish_reason == "length"`
returns the truncation summary; otherwise the parsed payload is
returned. -/
def processResponse (r : ApiResponse) : ReviewResponse :=
  match r.refusal with
  | some _ => ⟨[], []⟩
  | none =>
      if r.finishedByLength then
        ⟨[], ("Error: Response truncated due to token limit.").toList⟩
      else r.parsed

/-- The response returned from the `except BadRequestError` branch. -/
def contentFilteredResponse : ReviewResponse :=
  ⟨[], ("Error: Content was filtered by the API.").toList⟩

/-- The response returned after the `for` loop exhausts all attempts on
rate limits: `f"Error: Rate limit exceeded after {MAX_RETRIES} retries."`. -/
def rateLimitedResponse : ReviewResponse :=
  ⟨[], (("Error: Rate limit exceeded after " ++ Nat.repr MAX_RETRIES ++ " retries.")).toList⟩

/-- The `for attempt in range(MAX_RETRIES)` loop of `_call_openai`, with
`remaining = MAX_RETRIES - attempt` iterations left.  A success, an
`AuthenticationError` (re-raised) or a `BadRequestError` ends the loop on
this attempt; a `RateLimitError` sleeps `2 ** (attempt + 1)` seconds when
this is not the last attempt (`attempt < MAX_RETRIES - 1`, i.e.
`remaining > 1`) and continues; when the loop runs out of attempts the
rate-limited response is returned. -/
def callOpenaiLoop (oracle : Nat → ApiOutcome) : Nat → Nat → CallTrace
  | _, 0 => ⟨[], 0, .returned rateLimitedResponse⟩
  | attempt, r + 1 =>
      match oracle attempt with
      | .ok resp => ⟨[], 1, .returned (processResponse resp)⟩
      | .authError => ⟨[], 1, .raisedAuthError⟩
      | .badRequest => ⟨[], 1, .returned contentFilteredResponse⟩
      | .rateLimit =>
          if r = 0 then ⟨[], 1, .returned rateLimitedResponse⟩
          else
            let t := callOpenaiLoop oracle (attempt + 1) r
            ⟨2 ^ (attempt + 1) :: t.sleeps, t.attempts + 1, t.result⟩

/-- Method `AIReviewer._call_openai`: run the attempt loop from attempt 0 with
`MAX_RETRIES` iterations available. -/
def callOpenai (oracle : Nat → ApiOutcome) : CallTrace :=
  callOpenaiLoop oracle 0 MAX_RETRIES

/-! ### The review phase of `main` (`src/review.py`) -/

/-- An exception escaping the review phase of `main` (lines 250-282 of
`src/review.py`), carrying the text that `f"{error}"` interpolates.
`openai.AuthenticationError` is a subclass of `Exception`, so it is one
of the possible values here. -/
inductive PipelineError where
  | authenticationError (msg : List Char)
  | otherError (msg : List Char)
deriving DecidableEq, Repr

/-- The interpolated text of a pipeline error. -/
def errorMessage : PipelineError → List Char
  | .authenticationError m => m
  | .otherError m => m

/-- A platform comment dict `{"path": ..., "body": ..., "line": ...}`
built by `main`. -/
structure PlatformComment where
  path : List Char
  body : List Char
  line : Nat
deriving DecidableEq, Repr

/-- A call `main` makes on the platform client during its review phase. -/
inductive PlatformCall where
  | postReviewComments (comments : List PlatformComment) (summary : List Char)
  | postErrorComment (message : List Char)
deriving DecidableEq, Repr

/-- The `try`/`except` block of `main` (`src/review.py` lines 250-282),
given the result of `reviewer.review_files` (either the aggregated
comments or an exception) and the `file_patches` mapping: on success the
comments are validated, formatted and posted with the summary; on any
exception — `except Exception` catches every exception class, including
`openai.AuthenticationError` — a single
`platform.post_error_comment(f"CodeGuardian encountered an error: {error}")`
call is made instead.  The returned list is the sequence of platform
calls the block performs. -/
def reviewPhase (reviewFilesResult : Except PipelineError (List ReviewComment))
    (filePatches : List Char → Option (List Char)) : List PlatformCall :=
  match reviewFilesResult with
  | .error e =>
      [.postErrorComment (("CodeGuardian encountered an error: ").toList ++ errorMessage e)]
  | .ok aiComments =>
      let validComments := validateCommentLines aiComments filePatches
      let platformComments := validComments.map
        (fun c => PlatformComment.mk c.filePath (formatCommentBody c) c.lineNumber)
      let summary := buildSummary validComments
      [.postReviewComments platformComments summary]

/-! ### Decision predicates and concrete values used by the theorems -/

/-- The keep condition applied by `validate_comment_lines` to one
comment: its file has a patch and its line number is among the patch's
valid comment lines. -/
def commentKeepable (filePatches : List Char → Option (List Char)) (c : ReviewComment) : Bool :=
  match filePatches c.filePath with
  | none => false
  | some patch => decide (c.lineNumber ∈ getValidCommentLines patch)

/-- The keep condition applied by `filter_reviewable_files` to one file:
a patch is present, additions are nonzero, and the last-dot suffix of the
filename is a reviewable extension. -/
def fileReviewable (f : ChangedFile) : Bool :=
  match f.patch with
  | none => false
  | some _ =>
      if f.additions = 0 then false
      else
        match lastDotSuffix f.filename with
        | none => false
        | some ext => decide (ext ∈ REVIEWABLE_EXTENSIONS)

/-- The single-hunk patch of the concrete diff-parsing scenario. -/
def examplePatch : List Char :=
  ("@@ -10,4 +10,6 @@\n context\n+added1\n+added2\n context\n context\n+added3").toList

/-- File `main.py` with one addition (concrete filter scenario). -/
def mainPyFile : ChangedFile := ⟨("main.py").toList, some (("+x").toList), 1, 0⟩

/-- File `logo.png` with no patch, i.e. a binary file (concrete filter
scenario). -/
def logoPngFile : ChangedFile := ⟨("logo.png").toList, none, 1, 1⟩

/-- File `removed.py` with zero additions, i.e. delete-only (concrete filter
scenario). -/
def removedPyFile : ChangedFile :=
  ⟨("removed.py").toList, some (("@@ -1,3 +0,0 @@\n-a\n-b\n-c").toList), 0, 3⟩

/-- Two error-severity comments followed by one warning-severity comment
(concrete summary scenario). -/
def twoErrorsOneWarning : List ReviewComment :=
  [⟨("main.py").toList, 1, .error, .bug, ("a").toList⟩,
   ⟨("main.py").toList, 2, .error, .security, ("b").toList⟩,
   ⟨("main.py").toList, 3, .warning, .performance, ("c").toList⟩]

/-! ## Theorems -/

/-- The loop of `validate_comment_lines` is a filter by
`commentKeepable`. -/
theorem validateCommentLines_eq_filter (comments : List ReviewComment)
    (filePatches : List Char → Option (List Char)) :
    validateCommentLines comments filePatches = comments.filter (commentKeepable filePatches) := by
  induction comments with
  | nil => rfl
  | cons c cs ih =>
      cases h : filePatches c.filePath with
      | none => simp [validateCommentLines, List.filter_cons, commentKeepable, h, ih]
      | some p =>
          by_cases hm : c.lineNumber ∈ getValidCommentLines p
          · simp [validateCommentLines, List.filter_cons, commentKeepable, h, hm, ih]
          · simp [validateCommentLines, List.filter_cons, commentKeepable, h, hm, ih]

/-- C1.  Validator soundness: `validate_comment_lines` keeps a comment
iff a patch for its `file_path` is present in the mapping and its
`line_number` is among the new-file line numbers of that patch
(a comment whose file has no patch is merely skipped), and the kept
comments form an order-preserving subsequence of the input. -/
theorem validate_comment_lines_sound (comments : List ReviewComment)
    (filePatches : List Char → Option (List Char)) :
    (validateCommentLines comments filePatches).Sublist comments ∧
    ∀ c, c ∈ validateCommentLines comments filePatches ↔
      c ∈ comments ∧ ∃ p, filePatches c.filePath = some p ∧
        c.lineNumber ∈ getValidCommentLines p := by
  rw [validateCommentLines_eq_filter]
  refine ⟨List.filter_sublist _, fun c => ?_⟩
  rw [List.mem_filter]
  cases h : filePatches c.filePath with
  | none => simp [commentKeepable, h]
  | some p => simp [commentKeepable, h]

/-- The loop of `filter_reviewable_files` is a filter by
`fileReviewable`. -/
theorem filterReviewableFiles_eq_filter (files : List ChangedFile) :
    filterReviewableFiles files = files.filter fileReviewable := by
  induction files with
  | nil => rfl
  | cons f fs ih =>
      cases hp : f.patch with
      | none => simp [filterReviewableFiles, List.filter_cons, fileReviewable, hp, ih]
      | some p =>
          by_cases ha : f.additions = 0
          · simp [filterReviewableFiles, List.filter_cons, fileReviewable, hp, ha, ih]
          · cases he : lastDotSuffix f.filename with
            | none =>
                simp [filterReviewableFiles, List.filter_cons, fileReviewable, hp, ha, he, ih]
            | some ext =>
                by_cases hm : ext ∈ REVIEWABLE_EXTENSIONS
                · simp [filterReviewableFiles, List.filter_cons, fileReviewable, hp, ha, he, hm, ih]
                · simp [filterReviewableFiles, List.filter_cons, fileReviewable, hp, ha, he, hm, ih]

/-- C7.  Filter correctness: `filter_reviewable_files` keeps exactly the
files with a patch, a nonzero addition count and a reviewable last-dot
extension, as an order-preserving subsequence; on the concrete mixed file
set the output is exactly `[main.py]`. -/
theorem filter_reviewable_files_correct (files : List ChangedFile) :
    (filterReviewableFiles files).Sublist files ∧
    (∀ f, f ∈ filterReviewableFiles files ↔
        f ∈ files ∧ f.patch ≠ none ∧ f.additions ≠ 0 ∧
          ∃ e, lastDotSuffix f.filename = some e ∧ e ∈ REVIEWABLE_EXTENSIONS) ∧
    filterReviewableFiles [mainPyFile, logoPngFile, removedPyFile] = [mainPyFile] := by
  refine ⟨?_, ?_, by decide⟩
  · rw [filterReviewableFiles_eq_filter]
    exact List.filter_sublist _
  · intro f
    rw [filterReviewableFiles_eq_filter, List.mem_filter]
    cases hp : f.patch with
    | none => simp [fileReviewable, hp]
    | some p =>
        by_cases ha : f.additions = 0
        · simp [fileReviewable, hp, ha]
        · cases he : lastDotSuffix f.filename with
          | none => simp [fileReviewable, hp, ha, he]
          | some ext => simp [fileReviewable, hp, ha, he]

/-- C10.  Extension matching is case-sensitive against the literal
allow-list: `MAIN.PY` is excluded even with a patch and positive
additions, while a dotfile named exactly `.py` is included. -/
theorem extension_matching_case_sensitive :
    filterReviewableFiles [⟨("MAIN.PY").toList, some (("+x").toList), 1, 0⟩] = [] ∧
    filterReviewableFiles [⟨(".py").toList, some (("+x").toList), 1, 0⟩] =
      [⟨(".py").toList, some (("+x").toList), 1, 0⟩] := by decide

/-- A line recognized as a hunk header begins with `@` (so it can never
be caught by the preceding backslash check of the loop). -/
theorem parseHunkHeader_head (l : List Char) (m : Nat) (h : parseHunkHeader l = some m) :
    l.head? = some '@' := by
  rcases l with _ | ⟨c1, _ | ⟨c2, _ | ⟨c3, _ | ⟨c4, rest⟩⟩⟩⟩
  · exact Option.noConfusion h
  · exact Option.noConfusion h
  · exact Option.noConfusion h
  · exact Option.noConfusion h
  · simp only [parseHunkHeader] at h
    by_cases hc : c1 = '@' ∧ c2 = '@' ∧ c3 = ' ' ∧ c4 = '-'
    · simp [hc.1]
    · rw [if_neg hc] at h
      exact Option.noConfusion h

/-- Within a header-free run of raw lines, the emitted line numbers are
consecutive starting at the current counter: one increment per emitted
(addition or context) line, skipped lines leaving the counter
untouched. -/
theorem parseLinesAux_no_header_map (lines : List (List Char)) :
    ∀ n, (∀ l ∈ lines, parseHunkHeader l = none) →
      (parseLinesAux lines n).map DiffLine.lineNumber =
        List.range' n (parseLinesAux lines n).length := by
  induction lines with
  | nil => intro n _; simp [parseLinesAux]
  | cons line rest ih =>
      intro n hno
      have hline : parseHunkHeader line = none := hno line (List.mem_cons_self _ _)
      have hrest : ∀ l ∈ rest, parseHunkHeader l = none :=
        fun l hl => hno l (List.mem_cons_of_mem _ hl)
      by_cases hb : line.head? = some '\\'
      · simp only [parseLinesAux, if_pos hb]
        exact ih n hrest
      · simp only [parseLinesAux, if_neg hb, hline]
        cases line with
        | nil => exact ih n hrest
        | cons p content =>
            by_cases hp : p = '+'
            · simp only [if_pos hp, List.map_cons, List.length_cons, List.range'_succ]
              rw [ih (n + 1) hrest]
            · by_cases hm : p = '-'
              · simp only [if_neg hp, if_pos hm]
                exact ih n hrest
              · by_cases hs : p = ' '
                · simp only [if_neg hp, if_neg hm, if_pos hs, List.map_cons,
                    List.length_cons, List.range'_succ]
                  rw [ih (n + 1) hrest]
                · simp only [if_neg hp, if_neg hm, if_neg hs]
                  exact ih n hrest

/-- C2.  Diff-parse line numbering: a hunk header resets the running
counter to its `newStart` (first conjunct); within a header-free run the
emitted line numbers increase by exactly 1 per emitted line (second
conjunct); and the concrete single-hunk scenario parses to line numbers
10..15 with the additions at 11, 12 and 15 (third conjunct). -/
theorem parse_patch_line_numbering :
    (∀ (line : List Char) (rest : List (List Char)) (n m : Nat),
        parseHunkHeader line = some m →
        parseLinesAux (line :: rest) n = parseLinesAux rest m) ∧
    (∀ (lines : List (List Char)) (n : Nat), (∀ l ∈ lines, parseHunkHeader l = none) →
        (parseLinesAux lines n).map DiffLine.lineNumber =
          List.range' n (parseLinesAux lines n).length) ∧
    (parsePatch examplePatch).map DiffLine.lineNumber = [10, 11, 12, 13, 14, 15] ∧
    ((parsePatch examplePatch).filter (fun d => d.isAddition)).map DiffLine.lineNumber =
      [11, 12, 15] := by
  refine ⟨?_, parseLinesAux_no_header_map, by decide, by decide⟩
  intro line rest n m h
  have hb : line.head? ≠ some '\\' := by
    rw [parseHunkHeader_head line m h]
    decide
  simp only [parseLinesAux, if_neg hb, h]

/-- Closed instance of C2's two universally quantified conjuncts: the
reset on a concrete header and the consecutive numbering of a concrete
header-free run. -/
theorem parse_patch_line_numbering_witness :
    parseLinesAux [("@@ -3,1 +7,2 @@").toList, ("+z").toList] 0 =
      parseLinesAux [("+z").toList] 7 ∧
    (parseLinesAux [(" a").toList, ("+b").toList] 5).map DiffLine.lineNumber =
      List.range' 5 (parseLinesAux [(" a").toList, ("+b").toList] 5).length :=
  ⟨parse_patch_line_numbering.1 (("@@ -3,1 +7,2 @@").toList) [("+z").toList] 0 7 (by decide),
   parse_patch_line_numbering.2.1 [(" a").toList, ("+b").toList] 5 (by decide)⟩

/-- The C6 claim as stated is false: `parse_patch` starts its counter at
0, so an addition line appearing before any hunk header is emitted with
line number 0.  Concretely, parsing the patch text `+x` produces a
DiffLine with `line_number = 0`. -/
theorem parse_patch_zero_line_number :
    ¬ (∀ (patch : List Char), ∀ d ∈ parsePatch patch, 1 ≤ d.lineNumber) := by
  intro h
  exact absurd
    (h (("+x").toList) (DiffLine.mk 0 (("x").toList) true false false) (by decide))
    (by decide)

/-- Every line emitted by the loop has a positive line number, provided
the counter is positive and every hunk header among the remaining lines
has a positive `newStart`. -/
theorem parseLinesAux_lineNumber_pos (lines : List (List Char)) :
    ∀ n, 1 ≤ n →
      (∀ l ∈ lines, (parseHunkHeader l).all (fun m => decide (1 ≤ m)) = true) →
      ∀ d ∈ parseLinesAux lines n, 1 ≤ d.lineNumber := by
  induction lines with
  | nil =>
      intro n _ _ d hd
      simp [parseLinesAux] at hd
  | cons line rest ih =>
      intro n hn hhdr
      have hrest : ∀ l ∈ rest, (parseHunkHeader l).all (fun m => decide (1 ≤ m)) = true :=
        fun l hl => hhdr l (List.mem_cons_of_mem _ hl)
      by_cases hb : line.head? = some '\\'
      · simp only [parseLinesAux, if_pos hb]
        exact ih n hn hrest
      · cases hh : parseHunkHeader line with
        | some k =>
            simp only [parseLinesAux, if_neg hb, hh]
            have hk := hhdr line (List.mem_cons_self _ _)
            rw [hh] at hk
            simp only [Option.all_some, decide_eq_true_eq] at hk
            exact ih k hk hrest
        | none =>
            simp only [parseLinesAux, if_neg hb, hh]
            cases line with
            | nil => exact ih n hn hrest
            | cons p content =>
                by_cases hp : p = '+'
                · simp only [if_pos hp]
                  intro d hd
                  rcases List.mem_cons.mp hd with rfl | hd'
                  · exact hn
                  · exact ih (n + 1) (le_trans hn (Nat.le_succ n)) hrest d hd'
                · by_cases hm : p = '-'
                  · simp only [if_neg hp, if_pos hm]
                    exact ih n hn hrest
                  · by_cases hs : p = ' '
                    · simp only [if_neg hp, if_neg hm, if_pos hs]
                      intro d hd
                      rcases List.mem_cons.mp hd with rfl | hd'
                      · exact hn
                      · exact ih (n + 1) (le_trans hn (Nat.le_succ n)) hrest d hd'
                    · simp only [if_neg hp, if_neg hm, if_neg hs]
                      exact ih n hn hrest

/-- C6 (amended).  Positive line numbers hold for every patch whose
first line is a hunk header with a positive `newStart` and all of whose
hunk headers have a positive `newStart` — the shape of every real
unified-diff patch with a visible new-side line; without that proviso the
counter's initial value 0 can be emitted (see
`parse_patch_zero_line_number`). -/
theorem parse_patch_line_numbers_positive (patch first : List Char)
    (rest : List (List Char)) (k : Nat)
    (hsplit : splitLines patch = first :: rest)
    (hfirst : parseHunkHeader first = some k) (hk : 1 ≤ k)
    (hall : ∀ l ∈ splitLines patch, (parseHunkHeader l).all (fun m => decide (1 ≤ m)) = true) :
    ∀ d ∈ parsePatch patch, 1 ≤ d.lineNumber := by
  by_cases hp : patch = []
  · intro d hd
    simp [parsePatch, hp] at hd
  · intro d hd
    rw [parsePatch, if_neg hp, hsplit] at hd
    have hb : first.head? ≠ some '\\' := by
      rw [parseHunkHeader_head first k hfirst]
      decide
    simp only [parseLinesAux, if_neg hb, hfirst] at hd
    exact parseLinesAux_lineNumber_pos rest k hk
      (fun l hl => hall l (by rw [hsplit]; exact List.mem_cons_of_mem _ hl)) d hd

/-- Closed instance of C6's amended theorem on a concrete well-formed
patch. -/
theorem parse_patch_line_numbers_positive_witness :
    1 ≤ (DiffLine.mk 1 (("a").toList) false false true).lineNumber :=
  parse_patch_line_numbers_positive (("@@ -1,2 +1,3 @@\n a\n+b\n c").toList)
    (("@@ -1,2 +1,3 @@").toList) [(" a").toList, ("+b").toList, (" c").toList] 1
    (by decide) (by decide) (by decide) (by decide)
    (DiffLine.mk 1 (("a").toList) false false true) (by decide)

/-- C3.  Retry bound under persistent rate limiting: when every attempt
raises `RateLimitError`, `_call_openai` makes exactly `MAX_RETRIES`
attempts separated by `MAX_RETRIES - 1` backoff sleeps of `2 ^ a`
seconds for attempt number `a = 1, ..., MAX_RETRIES - 1` (the code's own
1-based numbering of attempts, `2 ** (attempt + 1)` over the 0-based loop
index), and then returns the rate-limited response — zero comments and a
summary stating the retry count — instead of raising. -/
theorem call_openai_retry_bound (oracle : Nat → ApiOutcome)
    (h : ∀ i, oracle i = ApiOutcome.rateLimit) :
    callOpenai oracle =
      ⟨(List.range' 1 (MAX_RETRIES - 1)).map (fun a => 2 ^ a), MAX_RETRIES,
        .returned ⟨[],
          (("Error: Rate limit exceeded after " ++ Nat.repr MAX_RETRIES ++ " retries.")).toList⟩⟩ := by
  simp only [callOpenai, MAX_RETRIES, callOpenaiLoop, h 0, h 1, h 2]
  decide

/-- Closed instance of C3's theorem at the constantly rate-limited
oracle. -/
theorem call_openai_retry_bound_witness :
    callOpenai (fun _ => ApiOutcome.rateLimit) =
      ⟨(List.range' 1 (MAX_RETRIES - 1)).map (fun a => 2 ^ a), MAX_RETRIES,
        .returned ⟨[],
          (("Error: Rate limit exceeded after " ++ Nat.repr MAX_RETRIES ++ " retries.")).toList⟩⟩ :=
  call_openai_retry_bound (fun _ => ApiOutcome.rateLimit) (fun _ => rfl)

/-- C8.  Auth short-circuit: an `AuthenticationError` on the first
attempt is re-raised out of `_call_openai` after exactly one attempt and
zero backoff sleeps. -/
theorem call_openai_auth_short_circuit (oracle : Nat → ApiOutcome)
    (h : oracle 0 = ApiOutcome.authError) :
    callOpenai oracle = ⟨[], 1, .raisedAuthError⟩ := by
  simp only [callOpenai, MAX_RETRIES, callOpenaiLoop, h]

/-- Closed instance of C8's theorem at the constantly auth-failing
oracle. -/
theorem call_openai_auth_short_circuit_witness :
    callOpenai (fun _ => ApiOutcome.authError) = ⟨[], 1, .raisedAuthError⟩ :=
  call_openai_auth_short_circuit (fun _ => ApiOutcome.authError) rfl

/-- The length of a comment list is the sum of its three severity
counts (the `severity` type has exactly the three literal values). -/
theorem length_eq_severity_counts (comments : List ReviewComment) :
    comments.length = errorCount comments + warningCount comments + infoCount comments := by
  induction comments with
  | nil => rfl
  | cons c cs ih =>
      cases hs : c.severity <;>
        simp [errorCount, warningCount, infoCount, List.countP_cons, hs] <;>
        · simp [errorCount, warningCount, infoCount] at ih
          omega

/-- The C4 claim as stated is false on its concrete scenario: over two
error comments and one warning comment the summary prints the fixed
plural form `"1 warnings"`, so it does not end in the claimed
`"(2 errors, 1 warning, 0 info)"`. -/
theorem build_summary_singular_warning_false :
    buildSummary twoErrorsOneWarning =
      ("CodeGuardian Review: Found 3 issues (2 errors, 1 warnings, 0 info)").toList ∧
    ¬ (("Found 3 issues (2 errors, 1 warning, 0 info)").toList <:+
        buildSummary twoErrorsOneWarning) := by
  constructor
  · decide
  · decide

/-- C4 (amended).  Summary text format: the summary equals
`"CodeGuardian Review: Found <N> issues (<E> errors, <W> warnings, <I> info)"`
with `N = E + W + I` counted over the given list, the unit words being
invariantly plural; over two errors and one warning it reads
`"... Found 3 issues (2 errors, 1 warnings, 0 info)"`. -/
theorem build_summary_format (comments : List ReviewComment) :
    comments.length = errorCount comments + warningCount comments + infoCount comments ∧
    buildSummary comments =
      ("CodeGuardian Review: Found ").toList
        ++ (Nat.repr (errorCount comments + warningCount comments + infoCount comments)).toList
        ++ (" issues (").toList ++ (Nat.repr (errorCount comments)).toList
        ++ (" errors, ").toList ++ (Nat.repr (warningCount comments)).toList
        ++ (" warnings, ").toList ++ (Nat.repr (infoCount comments)).toList
        ++ (" info)").toList ∧
    buildSummary twoErrorsOneWarning =
      ("CodeGuardian Review: Found 3 issues (2 errors, 1 warnings, 0 info)").toList := by
  refine ⟨length_eq_severity_counts comments, ?_, by decide⟩
  rw [buildSummary, length_eq_severity_counts comments]

/-- The C5 claim as stated is false: `main`'s catch-all
`except Exception` converts an `AuthenticationError` escaping the review
phase into a `post_error_comment` call rather than letting it propagate.
Concretely, an authentication failure with message `Invalid API key`
results in exactly one posted error comment. -/
theorem auth_failure_posted_not_propagated :
    reviewPhase (.error (.authenticationError (("Invalid API key").toList))) (fun _ => none) =
      [.postErrorComment (("CodeGuardian encountered an error: Invalid API key").toList)] ∧
    PlatformCall.postErrorComment (("CodeGuardian encountered an error: Invalid API key").toList) ∈
      reviewPhase (.error (.authenticationError (("Invalid API key").toList))) (fun _ => none) := by
  constructor
  · decide
  · decide

/-- C5 (amended).  An authentication failure is re-raised out of the
adapter with no retry and no sleep, but the orchestrator's catch-all
converts every exception escaping the review phase — authentication
failures included — into a single posted error comment; the run does not
crash and no review comments are posted. -/
theorem auth_failure_adapter_raises_orchestrator_posts (oracle : Nat → ApiOutcome)
    (e : PipelineError) (filePatches : List Char → Option (List Char))
    (h : oracle 0 = ApiOutcome.authError) :
    callOpenai oracle = ⟨[], 1, .raisedAuthError⟩ ∧
    reviewPhase (.error e) filePatches =
      [.postErrorComment ((("CodeGuardian encountered an error: ").toList) ++ errorMessage e)] := by
  constructor
  · simp only [callOpenai, MAX_RETRIES, callOpenaiLoop, h]
  · rfl

/-- Closed instance of C5's amended theorem at a concrete failing oracle
and error. -/
theorem auth_failure_adapter_raises_orchestrator_posts_witness :
    callOpenai (fun _ => ApiOutcome.authError) = ⟨[], 1, .raisedAuthError⟩ ∧
    reviewPhase (.error (.authenticationError (("bad key").toList))) (fun _ => none) =
      [.postErrorComment ((("CodeGuardian encountered an error: ").toList)
        ++ errorMessage (.authenticationError (("bad key").toList)))] :=
  auth_failure_adapter_raises_orchestrator_posts (fun _ => ApiOutcome.authError)
    (.authenticationError (("bad key").toList)) (fun _ => none) rfl

/-- C9.  Input sanitization: the sanitizer never returns more than
`MAX_INPUT_LENGTH = 500` characters, and on concrete inputs it strips
image and link syntax to the label text, strips emphasis markers, strips
leading heading markers and strips backtick markers. -/
theorem sanitize_input_bounded :
    (∀ text : List Char, (sanitizeInput text).length ≤ MAX_INPUT_LENGTH) ∧
    sanitizeInput (("![alt](url)").toList) = ("alt").toList ∧
    sanitizeInput (("[text](url)").toList) = ("text").toList ∧
    sanitizeInput (("**bold** and *italic*").toList) = ("bold and italic").toList ∧
    sanitizeInput (("# heading").toList) = ("heading").toList ∧
    sanitizeInput (("`code` and ```fenced```").toList) = ("code and fenced").toList := by
  refine ⟨fun text => ?_, by decide, by decide, by decide, by decide, by decide⟩
  by_cases h : text = []
  · simp [sanitizeInput, h, MAX_INPUT_LENGTH]
  · simp only [sanitizeInput, if_neg h]
    set s := stripBackticks (stripHeaders (stripLinks (stripEmphasis (stripImages text)))) with hs
    by_cases h2 : MAX_INPUT_LENGTH < s.length
    · simp only [if_pos h2, List.length_take]
      omega
    · simp only [if_neg h2]
      omega

/-! ### Fuel adequacy for the sanitizer scans

Each scan recurses on a fuel argument; the lemmas below show a match
always consumes part of the input, so any fuel of at least the input
length — in particular the input length used by the wrappers — computes
the same result. -/

/-- Dropping a prefix never lengthens a list. -/
theorem dropWhile_length_le (p : Char → Bool) (l : List Char) :
    (l.dropWhile p).length ≤ l.length := by
  induction l with
  | nil => simp
  | cons c cs ih =>
      by_cases h : p c
      · rw [List.dropWhile_cons, if_pos h]
        simp only [List.length_cons]
        omega
      · rw [List.dropWhile_cons, if_neg h]

/-- A successful image match consumes at least one character. -/
theorem matchImageAt_length (cs label after : List Char)
    (h : matchImageAt cs = some (label, after)) : after.length < cs.length := by
  rcases cs with _ | ⟨c1, _ | ⟨c2, rest⟩⟩
  · exact Option.noConfusion h
  · exact Option.noConfusion h
  · simp only [matchImageAt] at h
    split_ifs at h with h1 h2 h3
    · rw [Option.some.injEq, Prod.mk.injEq] at h
      obtain ⟨-, ha⟩ := h
      subst ha
      have d1 : (rest.dropWhile (fun c => c ≠ ']')).length ≤ rest.length :=
        dropWhile_length_le _ _
      have d2 : ((rest.dropWhile (fun c => c ≠ ']')).tail.tail.dropWhile
          (fun c => c ≠ ')')).length ≤
          (rest.dropWhile (fun c => c ≠ ']')).tail.tail.length :=
        dropWhile_length_le _ _
      simp only [List.length_tail] at d2 ⊢
      simp only [List.length_cons]
      omega

/-- A successful link match consumes at least one character. -/
theorem matchLinkAt_length (cs label after : List Char)
    (h : matchLinkAt cs = some (label, after)) : after.length < cs.length := by
  rcases cs with _ | ⟨c1, rest⟩
  · exact Option.noConfusion h
  · simp only [matchLinkAt] at h
    split_ifs at h with h1 h2 h3
    · rw [Option.some.injEq, Prod.mk.injEq] at h
      obtain ⟨-, ha⟩ := h
      subst ha
      have d1 : (rest.dropWhile (fun c => c ≠ ']')).length ≤ rest.length :=
        dropWhile_length_le _ _
      have d2 : ((rest.dropWhile (fun c => c ≠ ']')).tail.tail.dropWhile
          (fun c => c ≠ ')')).length ≤
          (rest.dropWhile (fun c => c ≠ ']')).tail.tail.length :=
        dropWhile_length_le _ _
      simp only [List.length_tail] at d2 ⊢
      simp only [List.length_cons]
      omega

/-- The close scan returns a nonempty remainder no longer than its
input. -/
theorem findEmphClose_spec (cs : List Char) :
    ∀ g rest, findEmphClose cs = some (g, rest) →
      rest.length ≤ cs.length ∧ 0 < rest.length := by
  induction cs with
  | nil => intro g rest h; exact Option.noConfusion h
  | cons c cs' ih =>
      intro g rest h
      simp only [findEmphClose] at h
      split_ifs at h with h1 h2
      · rw [Option.some.injEq, Prod.mk.injEq] at h
        obtain ⟨-, hr⟩ := h
        subst hr
        simp
      · cases hf : findEmphClose cs' with
        | none => rw [hf] at h; exact Option.noConfusion h
        | some pr =>
            obtain ⟨g', r'⟩ := pr
            rw [hf] at h
            simp only at h
            rw [Option.some.injEq, Prod.mk.injEq] at h
            obtain ⟨-, hr⟩ := h
            subst hr
            have := ih g' r' hf
            simp only [List.length_cons]
            omega

/-- A successful emphasis opening consumes at least one character. -/
theorem tryEmphOpen_length (k : Nat) :
    ∀ (cs g after : List Char), tryEmphOpen cs k = some (g, after) →
      after.length < cs.length := by
  induction k with
  | zero => intro cs g after h; exact Option.noConfusion h
  | succ k ih =>
      intro cs g after h
      simp only [tryEmphOpen] at h
      cases hf : findEmphClose (cs.drop (k + 1)) with
      | none =>
          rw [hf] at h
          simp only at h
          exact ih cs g after h
      | some pr =>
          obtain ⟨g', starsRest⟩ := pr
          rw [hf] at h
          simp only at h
          rw [Option.some.injEq, Prod.mk.injEq] at h
          obtain ⟨-, ha⟩ := h
          subst ha
          obtain ⟨hle, hpos⟩ := findEmphClose_spec _ _ _ hf
          rw [List.length_drop] at hle
          have hd : (starsRest.drop
              (min ((starsRest.takeWhile (fun c => c = '*')).length) 3)).length ≤
              starsRest.length := by
            rw [List.length_drop]
            omega
          omega

/-- A successful emphasis match consumes at least one character. -/
theorem matchEmphasisAt_length (cs g after : List Char)
    (h : matchEmphasisAt cs = some (g, after)) : after.length < cs.length := by
  simp only [matchEmphasisAt] at h
  split_ifs at h with h1
  exact tryEmphOpen_length _ cs g after h

/-- Any fuel of at least the input length computes the same image
scan. -/
theorem stripImagesAux_fuel (f1 : Nat) :
    ∀ (f2 : Nat) (cs : List Char), cs.length ≤ f1 → cs.length ≤ f2 →
      stripImagesAux f1 cs = stripImagesAux f2 cs := by
  induction f1 with
  | zero =>
      intro f2 cs h1 _
      have : cs = [] := List.length_eq_zero.mp (Nat.le_zero.mp h1)
      subst this
      cases f2 <;> rfl
  | succ f1 ih =>
      intro f2 cs h1 h2
      cases cs with
      | nil => cases f2 <;> rfl
      | cons c rest =>
          cases f2 with
          | zero => exact absurd h2 (by simp)
          | succ f2' =>
              cases hm : matchImageAt (c :: rest) with
              | none =>
                  simp only [stripImagesAux, hm]
                  have hr : rest.length ≤ f1 := by
                    simp only [List.length_cons] at h1
                    omega
                  have hr2 : rest.length ≤ f2' := by
                    simp only [List.length_cons] at h2
                    omega
                  rw [ih f2' rest hr hr2]
              | some pr =>
                  obtain ⟨label, after⟩ := pr
                  simp only [stripImagesAux, hm]
                  have hl := matchImageAt_length (c :: rest) label after hm
                  simp only [List.length_cons] at hl h1 h2
                  rw [ih f2' after (by omega) (by omega)]

/-- Any fuel of at least the input length computes the same link scan. -/
theorem stripLinksAux_fuel (f1 : Nat) :
    ∀ (f2 : Nat) (cs : List Char), cs.length ≤ f1 → cs.length ≤ f2 →
      stripLinksAux f1 cs = stripLinksAux f2 cs := by
  induction f1 with
  | zero =>
      intro f2 cs h1 _
      have : cs = [] := List.length_eq_zero.mp (Nat.le_zero.mp h1)
      subst this
      cases f2 <;> rfl
  | succ f1 ih =>
      intro f2 cs h1 h2
      cases cs with
      | nil => cases f2 <;> rfl
      | cons c rest =>
          cases f2 with
          | zero => exact absurd h2 (by simp)
          | succ f2' =>
              cases hm : matchLinkAt (c :: rest) with
              | none =>
                  simp only [stripLinksAux, hm]
                  have hr : rest.length ≤ f1 := by
                    simp only [List.length_cons] at h1
                    omega
                  have hr2 : rest.length ≤ f2' := by
                    simp only [List.length_cons] at h2
                    omega
                  rw [ih f2' rest hr hr2]
              | some pr =>
                  obtain ⟨label, after⟩ := pr
                  simp only [stripLinksAux, hm]
                  have hl := matchLinkAt_length (c :: rest) label after hm
                  simp only [List.length_cons] at hl h1 h2
                  rw [ih f2' after (by omega) (by omega)]

/-- Any fuel of at least the input length computes the same emphasis
scan. -/
theorem stripEmphasisAux_fuel (f1 : Nat) :
    ∀ (f2 : Nat) (cs : List Char), cs.length ≤ f1 → cs.length ≤ f2 →
      stripEmphasisAux f1 cs = stripEmphasisAux f2 cs := by
  induction f1 with
  | zero =>
      intro f2 cs h1 _
      have : cs = [] := List.length_eq_zero.mp (Nat.le_zero.mp h1)
      subst this
      cases f2 <;> rfl
  | succ f1 ih =>
      intro f2 cs h1 h2
      cases cs with
      | nil => cases f2 <;> rfl
      | cons c rest =>
          cases f2 with
          | zero => exact absurd h2 (by simp)
          | succ f2' =>
              cases hm : matchEmphasisAt (c :: rest) with
              | none =>
                  simp only [stripEmphasisAux, hm]
                  have hr : rest.length ≤ f1 := by
                    simp only [List.length_cons] at h1
                    omega
                  have hr2 : rest.length ≤ f2' := by
                    simp only [List.length_cons] at h2
                    omega
                  rw [ih f2' rest hr hr2]
              | some pr =>
                  obtain ⟨g, after⟩ := pr
                  simp only [stripEmphasisAux, hm]
                  have hl := matchEmphasisAt_length (c :: rest) g after hm
                  simp only [List.length_cons] at hl h1 h2
                  rw [ih f2' after (by omega) (by omega)]

/-- Any fuel of at least the input length computes the same header
scan. -/
theorem stripHeadersAux_fuel (f1 : Nat) :
    ∀ (f2 : Nat) (b : Bool) (cs : List Char), cs.length ≤ f1 → cs.length ≤ f2 →
      stripHeadersAux f1 b cs = stripHeadersAux f2 b cs := by
  induction f1 with
  | zero =>
      intro f2 b cs h1 _
      have : cs = [] := List.length_eq_zero.mp (Nat.le_zero.mp h1)
      subst this
      cases f2 <;> rfl
  | succ f1 ih =>
      intro f2 b cs h1 h2
      cases cs with
      | nil => cases f2 <;> rfl
      | cons c rest =>
          cases f2 with
          | zero => exact absurd h2 (by simp)
          | succ f2' =>
              simp only [List.length_cons] at h1 h2
              cases b with
              | false =>
                  simp only [stripHeadersAux]
                  rw [if_neg (fun hc => Bool.noConfusion hc),
                    if_neg (fun hc => Bool.noConfusion hc)]
                  rw [ih f2' (c == '\n') rest (by omega) (by omega)]
              | true =>
                  simp only [stripHeadersAux, if_true]
                  by_cases hh : 1 ≤ ((c :: rest).takeWhile (fun x => x = '#')).length ∧
                      ((c :: rest).takeWhile (fun x => x = '#')).length ≤ 6
                  · rw [if_pos hh, if_pos hh]
                    by_cases hw : ((c :: rest).dropWhile
                        (fun x => x = '#')).takeWhile isPySpace = []
                    · rw [if_pos hw, if_pos hw]
                      rw [ih f2' false rest (by omega) (by omega)]
                    · rw [if_neg hw, if_neg hw]
                      have e1 := congrArg List.length
                        (List.takeWhile_append_dropWhile (fun x => decide (x = '#'))
                          (c :: rest))
                      have e2 := congrArg List.length
                        (List.takeWhile_append_dropWhile isPySpace
                          ((c :: rest).dropWhile (fun x => decide (x = '#'))))
                      simp only [List.length_append, List.length_cons] at e1 e2
                      have hwpos : 0 < (((c :: rest).dropWhile
                          (fun x => x = '#')).takeWhile isPySpace).length :=
                        List.length_pos.mpr hw
                      rw [ih f2' _ _ (by omega) (by omega)]
                  · rw [if_neg hh, if_neg hh]
                    rw [ih f2' (c == '\n') rest (by omega) (by omega)]

end CodeGuardian
